import Mathlib

/-!
Shallow embedding of `src/experiments/lm_rnn.py`: a character-level LSTM
language-model script (corpus split, vocabulary, windowed dataset, LSTM
module, trainer with masked loss, predictor/sampler), together with
theorems checking the specification's claims against it.

Python strings are modelled as `List Char`, float tensors as (lists of)
rationals, dict lookups (which may raise `KeyError`) as `Option`-valued
functions, and the transcendental activations (`exp`, `log`, `sigmoid`,
`tanh`) as explicit function parameters, since the claims under scrutiny
are structural and hold for any choice of activation.
-/

namespace LmRnn

/-- Option-valued traversal of a list, modelling a Python list comprehension
whose body may raise (e.g. a dict lookup): the first failure aborts. -/
def mapM' (f : α → Option β) : List α → Option (List β)
  | [] => some []
  | a :: as =>
    match f a, mapM' f as with
    | some b, some bs => some (b :: bs)
    | _, _ => none

/-- `train_size = len(text) * 7 // 10`. -/
def train_size (text : List Char) : Nat := text.length * 7 / 10

/-- `train_set = text[:train_size]`. -/
def train_set (text : List Char) : List Char := text.take (train_size text)

/-- `val_set = text[train_size:]`. -/
def val_set (text : List Char) : List Char := text.drop (train_size text)

/-- `vocab = sorted(set(train_set))`: the sorted list of distinct characters
of a split (Python sorts `str` by code point, as `Char`'s order does). -/
def vocab (s : List Char) : List Char := List.insertionSort (· ≤ ·) s.dedup

/-- `char2idx = {char: idx for idx, char in enumerate(vocab)}`, as a lookup:
the index of a character in the vocabulary, `none` modelling `KeyError`.
(The Python dict keeps the last index on duplicate keys; `vocab` has no
duplicates, so the first index below agrees with it.) -/
def char2idx (v : List Char) (c : Char) : Option Nat :=
  match v with
  | [] => none
  | a :: as => if a = c then some 0 else (char2idx as c).map (· + 1)

/-- Fuel-indexed loop of `rangeStep`; the fuel only bounds the recursion
depth (any fuel at least `stop - i` gives the loop's value, because the
index grows by at least one each iteration). -/
def rangeStepGo (stop step : Nat) : Nat → Nat → List Nat
  | 0, _ => []
  | fuel + 1, i => if i < stop then i :: rangeStepGo stop step fuel (i + step) else []

/-- `range(i, stop, step)` of Python for a nonnegative start/stop/step and a
positive step, as the list of produced indices (a Python negative stop gives
an empty range, matching truncated `Nat` subtraction at the call sites). -/
def rangeStep (i stop step : Nat) : List Nat :=
  if 0 < step then rangeStepGo stop step (stop - i) i else []

/-- One iteration of the `LMDataset.__init__` loop body at start index `i`:
`txt = dataset[i : i + max_length + 1]`, `indices = [char2idx[c] for c in txt]`,
appending `indices[:-1]` to `xs` and `indices[1:]` to `ys`; here the pair is
returned, `none` modelling the `KeyError` on an unknown character. -/
def lmExample (c2i : Char → Option Nat) (dataset : List Char) (max_length i : Nat) :
    Option (List Nat × List Nat) :=
  match mapM' c2i ((dataset.drop i).take (max_length + 1)) with
  | none => none
  | some indices => some (indices.dropLast, indices.drop 1)

/-- `LMDataset.__init__`: the examples produced by
`for i in range(0, len(dataset) - max_length - 2, max_length)` (Python's
negative stop yields an empty range, matching truncated `Nat` subtraction). -/
def lmExamples (c2i : Char → Option Nat) (dataset : List Char) (max_length : Nat) :
    Option (List (List Nat × List Nat)) :=
  mapM' (lmExample c2i dataset max_length)
    (rangeStep 0 (dataset.length - max_length - 2) max_length)

/-! ### Sequence model (`LstmLM`) -/

/-- `torch.softmax(l, dim=-1)` on one logit vector, the exponential
abstracted as a function parameter. -/
def softmax (exp : ℚ → ℚ) (l : List ℚ) : List ℚ :=
  l.map (fun x => exp x / (l.map exp).sum)

/-- `torch.log_softmax(l, dim=-1)`: `x ↦ x - log (Σ exp)`, with the
exponential and logarithm abstract. -/
def logSoftmax (exp log : ℚ → ℚ) (l : List ℚ) : List ℚ :=
  l.map (fun x => x - log ((l.map exp).sum))

/-- The three submodules of `LstmLM` as functions: `embedding` (token index
to vector), `lstm` (sequence of input vectors and optional carried state to
per-position hidden outputs and final state — `none` is Python's `states=None`
default), `fc` (hidden vector to logits). `St` is the recurrent
(hidden, cell) state type. -/
structure LstmLM (St : Type) where
  embedding : Nat → List ℚ
  lstm : List (List ℚ) → Option St → List (List ℚ) × St
  fc : List ℚ → List ℚ

/-- The shared pipeline of `LstmLM.forward`/`LstmLM.predict` before the final
normalization: `o1 = embedding(x)`, `o2 = lstm(o1, states)`, `o3 = fc(o2[0])`;
returns the per-position logits and the updated LSTM state `o2[1]`. -/
def lmLogits (m : LstmLM St) (x : List Nat) (states : Option St) :
    List (List ℚ) × St :=
  let o2 := m.lstm (x.map m.embedding) states
  ((o2.1).map m.fc, o2.2)

/-- `LstmLM.forward`: log-softmax of the logits at every position; the LSTM
is called as `self.lstm(o1)`, i.e. without carried state. -/
def lmForward (exp log : ℚ → ℚ) (m : LstmLM St) (x : List Nat) : List (List ℚ) :=
  ((lmLogits m x none).1).map (logSoftmax exp log)

/-- `LstmLM.predict`: the logits are divided by `temperature` when it differs
from `1.0` (`if temperature != 1.0: o3 /= temperature`), then softmaxed at
every position; returns the distributions and the updated state. -/
def lmPredict (exp : ℚ → ℚ) (m : LstmLM St) (x : List Nat) (states : Option St)
    (temperature : ℚ) : List (List ℚ) × St :=
  let o2 := lmLogits m x states
  let o3 := if temperature ≠ 1 then (o2.1).map (·.map (· / temperature)) else o2.1
  (o3.map (softmax exp), o2.2)

/-! ### Concrete model parameters (`state_dict`) -/

/-- The persisted parameter tensors of the model (`model.state_dict()`):
the embedding matrix, the LSTM input-hidden / hidden-hidden weights and
biases, and the linear layer's weight and bias. -/
structure StateDict where
  embedding_weight : List (List ℚ)
  lstm_weight_ih : List (List ℚ)
  lstm_weight_hh : List (List ℚ)
  lstm_bias_ih : List ℚ
  lstm_bias_hh : List ℚ
  fc_weight : List (List ℚ)
  fc_bias : List ℚ

def dotProd (v w : List ℚ) : ℚ := ((v.zip w).map (fun p => p.1 * p.2)).sum

def matVec (M : List (List ℚ)) (v : List ℚ) : List ℚ := M.map (dotProd v)

def vecAdd (v w : List ℚ) : List ℚ := (v.zip w).map (fun p => p.1 + p.2)

def vecMul (v w : List ℚ) : List ℚ := (v.zip w).map (fun p => p.1 * p.2)

/-- One LSTM cell step (torch's gate order i, f, g, o) with hidden size `H`,
the sigmoid and tanh activations abstracted as `σf`/`τf`. -/
def lstmCell (σf τf : ℚ → ℚ) (sd : StateDict) (H : Nat) (x h c : List ℚ) :
    List ℚ × List ℚ :=
  let gates := vecAdd (vecAdd (matVec sd.lstm_weight_ih x) sd.lstm_bias_ih)
    (vecAdd (matVec sd.lstm_weight_hh h) sd.lstm_bias_hh)
  let i := (gates.take H).map σf
  let f := ((gates.drop H).take H).map σf
  let g := ((gates.drop (2 * H)).take H).map τf
  let o := ((gates.drop (3 * H)).take H).map σf
  let c' := vecAdd (vecMul f c) (vecMul i g)
  (vecMul o (c'.map τf), c')

/-- The single-direction, single-layer LSTM over a sequence: per-position
hidden outputs and the final (hidden, cell) state. -/
def lstmSeq (σf τf : ℚ → ℚ) (sd : StateDict) (H : Nat) :
    List (List ℚ) → List ℚ × List ℚ → List (List ℚ) × (List ℚ × List ℚ)
  | [], hc => ([], hc)
  | x :: xs, hc =>
    let hc' := lstmCell σf τf sd H x hc.1 hc.2
    let rest := lstmSeq σf τf sd H xs hc'
    (hc'.1 :: rest.1, rest.2)

/-- `LstmLM.__init__` followed by `load_state_dict`: the module determined by
a state dict with hidden size `H` (hard-coded 50 at both construction sites);
a `None` carried state is the all-zero (hidden, cell) pair, torch's default. -/
def buildModel (σf τf : ℚ → ℚ) (sd : StateDict) (H : Nat) :
    LstmLM (List ℚ × List ℚ) where
  embedding := fun t => sd.embedding_weight.getD t []
  lstm := fun xs states =>
    lstmSeq σf τf sd H xs (states.getD (List.replicate H 0, List.replicate H 0))
  fc := fun h => vecAdd (matVec sd.fc_weight h) sd.fc_bias

/-! ### Persistence and the predictor -/

/-- The artifacts `Trainer.save_model` writes to the results directory:
`model.pth` (the state dict) and `vocab.json` (the vocabulary list).
Serialization to disk is modelled as the identity on the stored values. -/
structure Artifacts where
  model_pth : StateDict
  vocab_json : List Char

/-- `Trainer.save_model`: persist the model's state dict and the module-global
`vocab`. -/
def save_model (sd : StateDict) (v : List Char) : Artifacts := ⟨sd, v⟩

/-- `Predictor.__init__`: reads `vocab.json` into a local variable used only
to size the fresh model (`LstmLM(len(vocab), ..., embedding_dim=50,
hidden_size=50)`), loads the state dict into it, and stores only the model —
the loaded vocabulary is not retained for encoding or decoding. -/
def predictorInit (σf τf : ℚ → ℚ) (a : Artifacts) : LstmLM (List ℚ × List ℚ) :=
  buildModel σf τf a.model_pth 50

/-- The generation loop of `Predictor.predict`, run `max_length` times: one
`LstmLM.predict` step on the current tokens; `output[-1]` (the distribution at
the final position — `IndexError`, modelled `none`, when the output is empty);
`multinomial(1)` through the sampling source `sample`; decoding
`vocab[predicted_idx]` via the module-global `vocab` (`IndexError`, modelled
`none`, when out of range); then only the newly sampled token, with the
carried state, is fed into the next step. -/
def genLoop (exp : ℚ → ℚ) (m : LstmLM St) (gvocab : List Char)
    (sample : List ℚ → Nat) (temperature : ℚ) :
    Nat → List Nat → Option St → Option (List Char)
  | 0, _, _ => some []
  | n + 1, tokens, states =>
    let r := lmPredict exp m tokens states temperature
    ((r.1).getLast?).bind fun dist =>
      (gvocab[sample dist]?).bind fun ch =>
        (genLoop exp m gvocab sample temperature n [sample dist] (some r.2)).map
          (ch :: ·)

/-- `Predictor.predict`: encode the seed with the module-global `char2idx`
(`gc2i`), then generate `max_length` characters starting from `states = None`;
`none` models an uncaught exception (unseen seed character, or an index
error inside the loop). -/
def predictorPredict (exp : ℚ → ℚ) (m : LstmLM St) (gvocab : List Char)
    (gc2i : Char → Option Nat) (sample : List ℚ → Nat) (text : List Char)
    (max_length : Nat) (temperature : ℚ) : Option (List Char) :=
  (mapM' gc2i text).bind fun tokens =>
    genLoop exp m gvocab sample temperature max_length tokens none

/-- An all-empty state dict, used to instantiate concrete scenarios. -/
def emptyStateDict : StateDict := ⟨[], [], [], [], [], [], []⟩

/-! ### Trainer: masked loss, validation -/

/-- One batch of the validation loader: input tokens and targets, each a list
of rows of token indices. -/
structure Batch where
  tokens : List (List Nat)
  target : List (List Nat)

/-- `nn.NLLLoss(reduction="none")` at one position: minus the predicted
log-probability at the true class. -/
def nllLoss (logp : List ℚ) (t : Nat) : ℚ := -(logp.getD t 0)

/-- `_tokens.gt(0.0)` followed by `.sum()`: the number of strictly positive
token indices in the batch. -/
def countPos (tokens : List (List Nat)) : Nat :=
  (tokens.map (fun row => row.countP (fun x => decide (0 < x)))).sum

/-- One row of `Trainer.loss`: per-position NLL terms multiplied elementwise
by the validity mask `tokens.gt(0)`, accumulated; rows and positions are
walked in parallel as the elementwise tensor operations do. -/
def maskedLossRow : List (List ℚ) → List Nat → List Nat → ℚ
  | o :: os, t :: ts, tok :: toks =>
    nllLoss o t * (if 0 < tok then 1 else 0) + maskedLossRow os ts toks
  | _, _, _ => 0

/-- `Trainer.loss`: `(self.loss_fn(output.permute(0, 2, 1), target) * masks).sum()`
over the whole batch. -/
def maskedLoss : List (List (List ℚ)) → List (List Nat) → List (List Nat) → ℚ
  | o :: os, t :: ts, tok :: toks => maskedLossRow o t tok + maskedLoss os ts toks
  | _, _, _ => 0

/-- Index of the first maximal entry, continuing a scan whose best index so
far is `best` with value `bv`, the next position being `i`. -/
def argmaxGo (best : Nat) (bv : ℚ) (i : Nat) : List ℚ → Nat
  | [] => best
  | x :: xs => if bv < x then argmaxGo i x (i + 1) xs else argmaxGo best bv (i + 1) xs

/-- `argmax(dim=-1)` on one distribution: index of the first maximal entry. -/
def argmaxIdx : List ℚ → Nat
  | [] => 0
  | x :: xs => argmaxGo 0 x 1 xs

/-- One row of `(output.argmax(dim=-1).eq(_target) * masks).sum()`. -/
def correctRow : List (List ℚ) → List Nat → List Nat → Nat
  | o :: os, t :: ts, tok :: toks =>
    (if argmaxIdx o = t ∧ 0 < tok then 1 else 0) + correctRow os ts toks
  | _, _, _ => 0

/-- `(output.argmax(dim=-1).eq(_target) * masks).sum()` over the batch. -/
def correctCount : List (List (List ℚ)) → List (List Nat) → List (List Nat) → Nat
  | o :: os, t :: ts, tok :: toks => correctRow o t tok + correctCount os ts toks
  | _, _, _ => 0

/-- The running accumulators of the `Trainer.validate` loop:
`tokens_count`, `val_loss`, `correct`. -/
structure ValAcc where
  tokens_count : Nat
  val_loss : ℚ
  correct : Nat

/-- One iteration of the `Trainer.validate` loop on one batch; `model` is the
forward pass `self.model(_tokens)` as a function of the batch's tokens. -/
def validateStep (model : List (List Nat) → List (List (List ℚ)))
    (acc : ValAcc) (b : Batch) : ValAcc :=
  { tokens_count := acc.tokens_count + countPos b.tokens
    val_loss := acc.val_loss + maskedLoss (model b.tokens) b.target b.tokens
    correct := acc.correct + correctCount (model b.tokens) b.target b.tokens }

/-- The accumulators after the whole `validate` loop. -/
def validateAcc (model : List (List Nat) → List (List (List ℚ)))
    (batches : List Batch) : ValAcc :=
  batches.foldl (validateStep model) ⟨0, 0, 0⟩

/-- `Trainer.validate`: returns
`((val_loss / tokens_count).item(), (correct / tokens_count).item())`. -/
def validate (model : List (List Nat) → List (List (List ℚ)))
    (batches : List Batch) : ℚ × ℚ :=
  let a := validateAcc model batches
  (a.val_loss / (a.tokens_count : ℚ), (a.correct : ℚ) / (a.tokens_count : ℚ))

/-- The explicit sum-over-positions form of the masked loss for one row, used
to state that the batch loss is a sum (not an average) of per-position
cross-entropy terms times the mask. -/
def ceMaskSumRow (o : List (List ℚ)) (t tok : List Nat) : ℚ :=
  ((o.zip (t.zip tok)).map
    (fun p => nllLoss p.1 p.2.1 * (if 0 < p.2.2 then 1 else 0))).sum

/-- The explicit sum form of the masked loss over a whole batch. -/
def ceMaskSum (o : List (List (List ℚ))) (t tok : List (List Nat)) : ℚ :=
  ((o.zip (t.zip tok)).map (fun p => ceMaskSumRow p.1 p.2.1 p.2.2)).sum

/-- The number of strictly positive token indices of a batch list, written
directly as a sum over flattened batches. -/
def totalPosTokens (batches : List Batch) : Nat :=
  (batches.map (fun b => (b.tokens.flatten).countP (fun x => decide (0 < x)))).sum

/-- A one-batch validation set used in concrete scenarios: a single row with
the single token index 1 whose target class is 0. -/
def witnessBatch : Batch := ⟨[[1]], [[0]]⟩

/-- A constant model for concrete scenarios: it scores class 0 above class 1
at the only position. -/
def witnessModel : List (List Nat) → List (List (List ℚ)) := fun _ => [[[1, 0]]]

/-! ### Trainer: the epoch loop and the metrics log -/

/-- One row of the metrics log: `(train_loss, val_loss, accuracy)`, with
absent fields `none`. -/
abbrev Row := Option ℚ × Option ℚ × Option ℚ

/-- The trainer's effect on the model state, abstracted: `train_epoch` maps a
state to the per-batch training losses (in batch order) and the updated
state; `validate` maps a state to `(val_loss, accuracy)`. -/
structure TrainSem (σ : Type) where
  train_epoch : σ → List ℚ × σ
  validate : σ → ℚ × ℚ

/-- The epoch loop of `Trainer.train`: per epoch, run `train_epoch`, then
`validate`, extend the log with one `(train_loss, None, None)` row per
training batch and append one `(None, val_loss, accuracy)` row. -/
def trainLoop (T : TrainSem σ) : σ → Nat → List Row × σ
  | s, 0 => ([], s)
  | s, n + 1 =>
    let e := T.train_epoch s
    let v := T.validate e.2
    let rest := trainLoop T e.2 n
    ((e.1.map (fun l => ((some l, none, none) : Row))) ++
      ((none, some v.1, some v.2) : Row) :: rest.1, rest.2)

/-- `Trainer.train(num_epoch)`: one baseline validation row before any
training, then the epoch loop; the returned list is the complete metrics
log. -/
def trainRun (T : TrainSem σ) (s : σ) (num_epoch : Nat) : List Row :=
  let v := T.validate s
  ((none, some v.1, some v.2) : Row) :: (trainLoop T s num_epoch).1

/-- The CSV written once, after all epochs: the header
`train_loss,val_loss,accuracy` and one line per log row, in order. -/
def trainCSV (T : TrainSem σ) (s : σ) (num_epoch : Nat) : List String × List Row :=
  (["train_loss", "val_loss", "accuracy"], trainRun T s num_epoch)

/-- The model state reached after `n` epochs of training. -/
def stateAfter (T : TrainSem σ) (s : σ) : Nat → σ
  | 0 => s
  | n + 1 => (T.train_epoch (stateAfter T s n)).2

/-- The rows epoch `e` (0-based) contributes to the metrics log: one row per
training batch of that epoch, then the post-epoch validation row. -/
def epochBlock (T : TrainSem σ) (s : σ) (e : Nat) : List Row :=
  ((T.train_epoch (stateAfter T s e)).1).map (fun l => ((some l, none, none) : Row)) ++
    [((none, some (T.validate (stateAfter T s (e + 1))).1,
       some (T.validate (stateAfter T s (e + 1))).2) : Row)]

/-! ## Helper lemmas -/

theorem mapM'_length {f : α → Option β} :
    ∀ {l : List α} {r : List β}, mapM' f l = some r → r.length = l.length := by
  intro l
  induction l with
  | nil => intro r h; simp [mapM'] at h; simp [← h]
  | cons a as ih =>
    intro r h
    simp only [mapM'] at h
    cases hfa : f a <;> rw [hfa] at h
    · exact absurd h (by simp)
    · cases hrest : mapM' f as <;> rw [hrest] at h
      · exact absurd h (by simp)
      · simp only [Option.some.injEq] at h
        simp [← h, ih hrest]

theorem mapM'_mem {f : α → Option β} :
    ∀ {l : List α} {r : List β}, mapM' f l = some r → ∀ b ∈ r, ∃ a ∈ l, f a = some b := by
  intro l
  induction l with
  | nil => intro r h; simp [mapM'] at h; simp [h]
  | cons a as ih =>
    intro r h
    simp only [mapM'] at h
    cases hfa : f a <;> rw [hfa] at h
    · exact absurd h (by simp)
    · cases hrest : mapM' f as <;> rw [hrest] at h
      · exact absurd h (by simp)
      · simp only [Option.some.injEq] at h
        intro b hb
        rw [← h] at hb
        rcases List.mem_cons.mp hb with rfl | hb
        · exact ⟨a, by simp, hfa⟩
        · obtain ⟨a', ha', hfa'⟩ := ih hrest b hb
          exact ⟨a', by simp [ha'], hfa'⟩

theorem mapM'_eq_none_iff {f : α → Option β} :
    ∀ {l : List α}, mapM' f l = none ↔ ∃ a ∈ l, f a = none := by
  intro l
  induction l with
  | nil => simp [mapM']
  | cons a as ih =>
    simp only [mapM']
    cases hfa : f a
    · simp [hfa]
    · cases hrest : mapM' f as
      · obtain ⟨a', ha', hfa'⟩ := ih.mp hrest
        constructor
        · intro _; exact ⟨a', List.mem_cons_of_mem a ha', hfa'⟩
        · intro _; rfl
      · constructor
        · intro h; exact absurd h (by simp)
        · rintro ⟨a', ha', hfa'⟩
          rcases List.mem_cons.mp ha' with rfl | ha'
          · rw [hfa] at hfa'; exact absurd hfa' (by simp)
          · have hnone : mapM' f as = none := ih.mpr ⟨a', ha', hfa'⟩
            rw [hrest] at hnone
            exact absurd hnone (by simp)

theorem mapM'_take {f : α → Option β} :
    ∀ {l : List α} {r : List β}, mapM' f l = some r →
      ∀ n, mapM' f (l.take n) = some (r.take n) := by
  intro l
  induction l with
  | nil => intro r h n; simp [mapM'] at h; simp [h, mapM']
  | cons a as ih =>
    intro r h n
    simp only [mapM'] at h
    cases hfa : f a <;> rw [hfa] at h
    · exact absurd h (by simp)
    · cases hrest : mapM' f as <;> rw [hrest] at h
      · exact absurd h (by simp)
      · simp only [Option.some.injEq] at h
        cases n with
        | zero => simp [mapM']
        | succ n => simp [← h, mapM', hfa, ih hrest n]

theorem mapM'_drop {f : α → Option β} :
    ∀ {l : List α} {r : List β}, mapM' f l = some r →
      ∀ n, mapM' f (l.drop n) = some (r.drop n) := by
  intro l
  induction l with
  | nil => intro r h n; simp [mapM'] at h; simp [h, mapM']
  | cons a as ih =>
    intro r h n
    simp only [mapM'] at h
    cases hfa : f a <;> rw [hfa] at h
    · exact absurd h (by simp)
    · cases hrest : mapM' f as <;> rw [hrest] at h
      · exact absurd h (by simp)
      · simp only [Option.some.injEq] at h
        cases n with
        | zero => simpa [mapM', hfa, hrest] using h
        | succ n => simp [← h, ih hrest n]

theorem rangeStepGo_length {stop step : Nat} (hstep : 0 < step) :
    ∀ (fuel i : Nat), stop - i ≤ fuel →
      (rangeStepGo stop step fuel i).length = (stop - i + step - 1) / step := by
  intro fuel
  induction fuel with
  | zero =>
    intro i h
    have h0 : stop - i = 0 := Nat.le_zero.mp h
    rw [rangeStepGo, h0]
    exact (Nat.div_eq_of_lt (by omega)).symm
  | succ fuel ih =>
    intro i h
    rw [rangeStepGo]
    by_cases hi : i < stop
    · rw [if_pos hi]
      have hrec := ih (i + step) (by omega)
      simp only [List.length_cons, hrec]
      rcases Nat.lt_or_ge (stop - i) step with hd | hd
      · have e1 : stop - (i + step) + step - 1 = step - 1 := by omega
        have e2 : stop - i + step - 1 = (stop - i - 1) + step := by omega
        rw [e1, e2, Nat.add_div_right _ hstep,
          Nat.div_eq_of_lt (show step - 1 < step by omega),
          Nat.div_eq_of_lt (show stop - i - 1 < step by omega)]
      · have e1 : stop - (i + step) + step - 1 = stop - i - 1 := by omega
        have e2 : stop - i + step - 1 = (stop - i - 1) + step := by omega
        rw [e1, e2, Nat.add_div_right _ hstep]
    · rw [if_neg hi]
      have h0 : stop - i = 0 := by omega
      rw [h0]
      exact (Nat.div_eq_of_lt (by omega)).symm

theorem rangeStepGo_mem {stop step : Nat} (hstep : 0 < step) :
    ∀ (fuel i j : Nat), stop - i ≤ fuel →
      (j ∈ rangeStepGo stop step fuel i ↔ j < stop ∧ ∃ k, j = i + k * step) := by
  intro fuel
  induction fuel with
  | zero =>
    intro i j h
    rw [rangeStepGo]
    simp only [List.not_mem_nil, false_iff]
    rintro ⟨hj, k, rfl⟩
    omega
  | succ fuel ih =>
    intro i j h
    rw [rangeStepGo]
    by_cases hi : i < stop
    · rw [if_pos hi]
      simp only [List.mem_cons]
      rw [ih (i + step) j (by omega)]
      constructor
      · rintro (rfl | ⟨hj, k, rfl⟩)
        · exact ⟨hi, 0, by omega⟩
        · exact ⟨hj, k + 1, by ring⟩
      · rintro ⟨hj, k, rfl⟩
        cases k with
        | zero => left; omega
        | succ k => right; exact ⟨hj, k, by ring⟩
    · rw [if_neg hi]
      simp only [List.not_mem_nil, false_iff]
      rintro ⟨hj, k, rfl⟩
      omega

theorem length_rangeStep {i stop step : Nat} (hstep : 0 < step) :
    (rangeStep i stop step).length = (stop - i + step - 1) / step := by
  rw [rangeStep, if_pos hstep]
  exact rangeStepGo_length hstep _ i le_rfl

theorem mem_rangeStep {i stop step j : Nat} (hstep : 0 < step) :
    j ∈ rangeStep i stop step ↔ j < stop ∧ ∃ k, j = i + k * step := by
  rw [rangeStep, if_pos hstep]
  exact rangeStepGo_mem hstep _ i j le_rfl

/-! ## Claim C1: number of windowed examples -/

/-- C1 counterexample: for the split `"aaaaa"` (N = 5) and window length
L = 3 we have N ≥ L + 2, yet `LMDataset.__init__` produces 0 examples while
the claimed count `floor((N - L - 2) / L) + 1` is 1 (the loop bound is
`range(0, N - L - 2, L)`, which stops strictly before `N - L - 2`). -/
theorem C1_counterexample :
    3 + 2 ≤ (List.replicate 5 'a').length ∧
    ¬ ((lmExamples (char2idx ['a']) (List.replicate 5 'a') 3).map List.length =
        some (((List.replicate 5 'a').length - 3 - 2) / 3 + 1)) := by decide

/-- C1 amended: for window length L > 0, the number of examples produced by
`LMDataset.__init__` equals `floor((N - L - 3) / L) + 1` when N ≥ L + 3 and
zero otherwise; equivalently, an example is emitted for every start index i
stepping by L from 0 while `i + L + 2 < N` (strictly). -/
theorem C1_amended (c2i : Char → Option Nat) (text : List Char) (L : Nat)
    (hL : 0 < L) (exs : List (List Nat × List Nat))
    (h : lmExamples c2i text L = some exs) :
    exs.length = (if L + 3 ≤ text.length then (text.length - L - 3) / L + 1 else 0) ∧
    ∀ i, i ∈ rangeStep 0 (text.length - L - 2) L ↔ L ∣ i ∧ i + L + 2 < text.length := by
  constructor
  · have hlen := mapM'_length h
    rw [hlen, length_rangeStep hL]
    by_cases hN : L + 3 ≤ text.length
    · rw [if_pos hN]
      have e : text.length - L - 2 - 0 + L - 1 = (text.length - L - 3) + L := by omega
      rw [e, Nat.add_div_right _ hL]
    · rw [if_neg hN]
      have e : text.length - L - 2 - 0 + L - 1 = L - 1 := by omega
      rw [e]
      exact Nat.div_eq_of_lt (by omega)
  · intro i
    rw [mem_rangeStep hL]
    constructor
    · rintro ⟨hi, k, hk⟩
      exact ⟨⟨k, by rw [hk]; ring⟩, by omega⟩
    · rintro ⟨⟨k, hk⟩, hi⟩
      exact ⟨by omega, k, by rw [hk]; ring⟩

/-- C1 witness: the split `"aaaaaaaaa"` (N = 9) with window length L = 2
produces exactly `floor((9 - 2 - 3) / 2) + 1 = 3` examples. -/
theorem C1_witness :
    (0 < 2) ∧
    ([([0, 0], [0, 0]), ([0, 0], [0, 0]), ([0, 0], [0, 0])] :
        List (List Nat × List Nat)).length =
      (if 2 + 3 ≤ (List.replicate 9 'a').length
        then ((List.replicate 9 'a').length - 2 - 3) / 2 + 1 else 0) :=
  ⟨by decide,
    (C1_amended (char2idx ['a']) (List.replicate 9 'a') 2 (by decide)
      [([0, 0], [0, 0]), ([0, 0], [0, 0]), ([0, 0], [0, 0])] (by decide)).1⟩

/-! ## Claim C4: target is the input shifted left by one -/

/-- C4: every example the windowed dataset produces comes from a start index
i (a multiple of L, with `i + L + 2 < N`), its input is the encoding of
`text[i : i+L]`, its target is the encoding of `text[i+1 : i+L+1]`, and
`target[j] = input[j+1]` for every j with j + 1 < L. -/
theorem C4_shifted_target (c2i : Char → Option Nat) (text : List Char) (L : Nat)
    (hL : 0 < L) (exs : List (List Nat × List Nat))
    (h : lmExamples c2i text L = some exs)
    (e : List Nat × List Nat) (he : e ∈ exs) :
    ∃ i, L ∣ i ∧ i + L + 2 < text.length ∧
      mapM' c2i ((text.drop i).take L) = some e.1 ∧
      mapM' c2i ((text.drop (i + 1)).take L) = some e.2 ∧
      ∀ j, j + 1 < L → e.2[j]? = e.1[j + 1]? := by
  obtain ⟨i, hi, hex⟩ := mapM'_mem h e he
  rw [mem_rangeStep hL] at hi
  obtain ⟨hilt, k, hk⟩ := hi
  have hiN : i + L + 2 < text.length := by omega
  refine ⟨i, ⟨k, by rw [hk]; ring⟩, hiN, ?_⟩
  simp only [lmExample] at hex
  cases hind : mapM' c2i ((text.drop i).take (L + 1)) <;> rw [hind] at hex
  · exact absurd hex (by simp)
  case some indices =>
  simp only [Option.some.injEq] at hex
  have hlen_txt : ((text.drop i).take (L + 1)).length = L + 1 := by
    rw [List.length_take, List.length_drop]; omega
  have hlen_ind : indices.length = L + 1 := by rw [mapM'_length hind, hlen_txt]
  have he1 : e.1 = indices.take L := by
    rw [← hex]
    show indices.dropLast = indices.take L
    rw [List.dropLast_eq_take, hlen_ind, Nat.add_sub_cancel]
  have he2 : e.2 = indices.drop 1 := by rw [← hex]
  refine ⟨?_, ?_, ?_⟩
  · rw [he1]
    have hmt := mapM'_take hind L
    rwa [List.take_take, min_eq_left (by omega)] at hmt
  · rw [he2]
    have hmd := mapM'_drop hind 1
    rwa [List.drop_take, List.drop_drop] at hmd
  · intro j hj
    rw [he1, he2, List.getElem?_drop, List.getElem?_take, if_pos hj, Nat.add_comm 1 j]

/-- C4 witness: for the corpus `"abcabc"` with L = 2, the (single) produced
example has input `[0, 1]` (i.e. `"ab"`) and target `[1, 2]` (i.e. `"bc"`),
the input shifted left by one. -/
theorem C4_witness :
    ∃ i, 2 ∣ i ∧ i + 2 + 2 < (['a', 'b', 'c', 'a', 'b', 'c'] : List Char).length ∧
      mapM' (char2idx ['a', 'b', 'c'])
        (((['a', 'b', 'c', 'a', 'b', 'c'] : List Char).drop i).take 2) = some [0, 1] ∧
      mapM' (char2idx ['a', 'b', 'c'])
        (((['a', 'b', 'c', 'a', 'b', 'c'] : List Char).drop (i + 1)).take 2) = some [1, 2] ∧
      ∀ j, j + 1 < 2 → ([1, 2] : List Nat)[j]? = ([0, 1] : List Nat)[j + 1]? :=
  C4_shifted_target (char2idx ['a', 'b', 'c']) ['a', 'b', 'c', 'a', 'b', 'c'] 2
    (by decide) [([0, 1], [1, 2])] (by decide) ([0, 1], [1, 2]) (by decide)

/-! ## Claim C5: 70/30 split and vocabulary -/

theorem char2idx_eq_none_iff {v : List Char} {c : Char} :
    char2idx v c = none ↔ c ∉ v := by
  induction v with
  | nil => simp [char2idx]
  | cons a as ih =>
    simp only [char2idx]
    by_cases hac : a = c
    · simp [hac]
    · rw [if_neg hac]
      simp only [Option.map_eq_none', ih, List.mem_cons]
      constructor
      · intro h hmem
        rcases hmem with rfl | hm
        · exact hac rfl
        · exact h hm
      · intro h hm
        exact h (Or.inr hm)

theorem char2idx_some_iff {v : List Char} (hv : v.Nodup) {c : Char} {i : Nat} :
    char2idx v c = some i ↔ v[i]? = some c := by
  induction v generalizing i with
  | nil => simp [char2idx]
  | cons a as ih =>
    have hna : a ∉ as := (List.nodup_cons.mp hv).1
    have hv' : as.Nodup := (List.nodup_cons.mp hv).2
    simp only [char2idx]
    by_cases hac : a = c
    · rw [if_pos hac]
      cases i with
      | zero => simp [hac]
      | succ j =>
        simp only [List.getElem?_cons_succ]
        constructor
        · intro h
          exact absurd h (by simp)
        · intro h
          have hc : c ∈ as := List.getElem?_mem h
          exact absurd (hac ▸ hc) hna
    · rw [if_neg hac]
      cases i with
      | zero =>
        simp only [List.getElem?_cons_zero, Option.map_eq_some', Option.some.injEq]
        constructor
        · rintro ⟨j, _, hj⟩
          exact absurd hj (by omega)
        · intro h
          exact absurd h hac
      | succ j =>
        simp only [List.getElem?_cons_succ, Option.map_eq_some', ← ih hv']
        constructor
        · rintro ⟨j', hj', hjj⟩
          have : j' = j := by omega
          rwa [← this]
        · intro h
          exact ⟨j, h, rfl⟩

theorem vocab_nodup (s : List Char) : (vocab s).Nodup :=
  ((List.perm_insertionSort _ _).nodup_iff).mpr s.nodup_dedup

theorem mem_vocab {s : List Char} {c : Char} : c ∈ vocab s ↔ c ∈ s := by
  rw [vocab, List.mem_insertionSort, List.mem_dedup]

theorem vocab_sorted (s : List Char) : (vocab s).Sorted (· < ·) :=
  (List.sorted_insertionSort _ _).lt_of_le (vocab_nodup s)

/-- C5: the training split is exactly the prefix of `floor(7 N / 10)`
characters and the validation split the remaining suffix; the vocabulary of
the training split is strictly sorted and contains exactly its distinct
characters; `char2idx` maps a character to index `i` exactly when it is the
`i`-th vocabulary entry (contiguous indices from 0 in sorted order). -/
theorem C5_split_and_vocab (text : List Char) :
    train_set text ++ val_set text = text ∧
    (train_set text).length = text.length * 7 / 10 ∧
    (vocab (train_set text)).Sorted (· < ·) ∧
    (∀ c, c ∈ vocab (train_set text) ↔ c ∈ train_set text) ∧
    (∀ c i, char2idx (vocab (train_set text)) c = some i ↔
      (vocab (train_set text))[i]? = some c) := by
  refine ⟨List.take_append_drop _ _, ?_, vocab_sorted _,
    fun c => mem_vocab, fun c i => char2idx_some_iff (vocab_nodup _)⟩
  rw [train_set, List.length_take, train_size]
  refine min_eq_left ?_
  calc text.length * 7 / 10 ≤ text.length * 10 / 10 :=
        Nat.div_le_div_right (by omega)
    _ = text.length := Nat.mul_div_cancel _ (by omega)

/-! ## Claim C7: temperature scaling in predict, log-softmax in forward -/

/-- C7: `LstmLM.predict` returns, at every position, the softmax of the
linear-layer logits divided by the temperature — the division skipped at
`temperature = 1.0` coincides with dividing by 1 — together with the updated
recurrent state; `LstmLM.forward` returns the log-softmax of the logits at
every position with no temperature scaling. -/
theorem C7_predict_softmax (exp log : ℚ → ℚ) {St : Type} (m : LstmLM St)
    (x : List Nat) (states : Option St) (t : ℚ) :
    lmPredict exp m x states t =
      (((lmLogits m x states).1).map (fun v => softmax exp (v.map (· / t))),
        (lmLogits m x states).2) ∧
    lmForward exp log m x = ((lmLogits m x none).1).map (logSoftmax exp log) := by
  refine ⟨?_, rfl⟩
  rw [lmPredict]
  by_cases ht : t = 1
  · subst ht
    simp [List.map_map, Function.comp_def]
  · simp [ht, List.map_map, Function.comp_def]

/-! ## Claims C3 and C10: masked validation statistics -/

theorem validateAcc_fold (model : List (List Nat) → List (List (List ℚ))) :
    ∀ (batches : List Batch) (acc : ValAcc),
      batches.foldl (validateStep model) acc =
        ⟨acc.tokens_count + (batches.map (fun b => countPos b.tokens)).sum,
         acc.val_loss +
           (batches.map (fun b => maskedLoss (model b.tokens) b.target b.tokens)).sum,
         acc.correct +
           (batches.map (fun b => correctCount (model b.tokens) b.target b.tokens)).sum⟩ := by
  intro batches
  induction batches with
  | nil => intro acc; simp
  | cons b bs ih =>
    intro acc
    rw [List.foldl_cons, ih]
    simp [validateStep, add_assoc]

theorem countPos_flatten (tokens : List (List Nat)) :
    countPos tokens = (tokens.flatten).countP (fun x => decide (0 < x)) := by
  induction tokens with
  | nil => simp [countPos]
  | cons row rows ih =>
    simp only [countPos, List.map_cons, List.sum_cons, List.flatten_cons,
      List.countP_append]
    rw [countPos] at ih
    omega

theorem maskedLossRow_eq_ceMaskSumRow :
    ∀ (o : List (List ℚ)) (t tok : List Nat),
      maskedLossRow o t tok = ceMaskSumRow o t tok := by
  intro o
  induction o with
  | nil => intro t tok; cases t <;> cases tok <;> simp [maskedLossRow, ceMaskSumRow]
  | cons p os ih =>
    intro t tok
    cases t with
    | nil => simp [maskedLossRow, ceMaskSumRow]
    | cons t0 ts =>
      cases tok with
      | nil => simp [maskedLossRow, ceMaskSumRow]
      | cons k toks => simp [maskedLossRow, ceMaskSumRow, ih ts toks]

theorem maskedLoss_eq_ceMaskSum :
    ∀ (o : List (List (List ℚ))) (t tok : List (List Nat)),
      maskedLoss o t tok = ceMaskSum o t tok := by
  intro o
  induction o with
  | nil => intro t tok; cases t <;> cases tok <;> simp [maskedLoss, ceMaskSum]
  | cons p os ih =>
    intro t tok
    cases t with
    | nil => simp [maskedLoss, ceMaskSum]
    | cons t0 ts =>
      cases tok with
      | nil => simp [maskedLoss, ceMaskSum]
      | cons k toks =>
        simp [maskedLoss, ceMaskSum, ih ts toks, maskedLossRow_eq_ceMaskSumRow]

theorem correctRow_le :
    ∀ (o : List (List ℚ)) (t tok : List Nat),
      correctRow o t tok ≤ tok.countP (fun x => decide (0 < x)) := by
  intro o
  induction o with
  | nil => intro t tok; cases t <;> cases tok <;> simp [correctRow]
  | cons p os ih =>
    intro t tok
    cases t with
    | nil => simp [correctRow]
    | cons t0 ts =>
      cases tok with
      | nil => simp [correctRow]
      | cons k toks =>
        have hr := ih ts toks
        by_cases hkpos : 0 < k
        · have hc : (k :: toks).countP (fun x => decide (0 < x)) =
              toks.countP (fun x => decide (0 < x)) + 1 := by
            rw [List.countP_cons]
            simp [hkpos]
          rw [hc]
          simp only [correctRow]
          split_ifs <;> omega
        · have hc : (k :: toks).countP (fun x => decide (0 < x)) =
              toks.countP (fun x => decide (0 < x)) := by
            rw [List.countP_cons]
            simp [hkpos]
          rw [hc]
          simp only [correctRow]
          rw [if_neg (fun hcon => hkpos hcon.2)]
          omega

theorem correctCount_le :
    ∀ (o : List (List (List ℚ))) (t tok : List (List Nat)),
      correctCount o t tok ≤ countPos tok := by
  intro o
  induction o with
  | nil => intro t tok; cases t <;> cases tok <;> simp [correctCount]
  | cons p os ih =>
    intro t tok
    cases t with
    | nil => simp [correctCount]
    | cons t0 ts =>
      cases tok with
      | nil => simp [correctCount]
      | cons k toks =>
        simp only [correctCount, countPos, List.map_cons, List.sum_cons]
        have h1 := correctRow_le p t0 k
        have h2 := ih ts toks
        rw [countPos] at h2
        omega

/-- C3: in `validate()`, `tokens_count` equals the number of input token
indices strictly greater than zero over the whole validation set; the
accumulated loss is, per batch, the sum (not average) of per-position
cross-entropy terms multiplied elementwise by the validity mask; and the
returned accuracy equals `correct / tokens_count` and lies in `[0, 1]`. -/
theorem C3_validate_stats (model : List (List Nat) → List (List (List ℚ)))
    (batches : List Batch)
    (h : 0 < (validateAcc model batches).tokens_count) :
    (validateAcc model batches).tokens_count = totalPosTokens batches ∧
    (validateAcc model batches).val_loss =
      (batches.map (fun b => ceMaskSum (model b.tokens) b.target b.tokens)).sum ∧
    (validate model batches).2 =
      ((validateAcc model batches).correct : ℚ) /
        ((validateAcc model batches).tokens_count : ℚ) ∧
    0 ≤ (validate model batches).2 ∧ (validate model batches).2 ≤ 1 := by
  have hfold : validateAcc model batches =
      ⟨(batches.map (fun b => countPos b.tokens)).sum,
       (batches.map (fun b => maskedLoss (model b.tokens) b.target b.tokens)).sum,
       (batches.map (fun b => correctCount (model b.tokens) b.target b.tokens)).sum⟩ := by
    rw [validateAcc, validateAcc_fold model batches ⟨0, 0, 0⟩]
    simp
  refine ⟨?_, ?_, rfl, ?_, ?_⟩
  · rw [hfold, totalPosTokens]
    exact congrArg List.sum
      (List.map_congr_left fun b _ => countPos_flatten b.tokens)
  · rw [hfold]
    exact congrArg List.sum
      (List.map_congr_left fun b _ => maskedLoss_eq_ceMaskSum _ _ _)
  · exact div_nonneg (Nat.cast_nonneg _) (Nat.cast_nonneg _)
  · show ((validateAcc model batches).correct : ℚ) /
      ((validateAcc model batches).tokens_count : ℚ) ≤ 1
    refine div_le_one_of_le₀ ?_ (Nat.cast_nonneg _)
    have hle : (validateAcc model batches).correct ≤
        (validateAcc model batches).tokens_count := by
      rw [hfold]
      exact List.sum_le_sum fun b _ => correctCount_le _ _ _
    exact_mod_cast hle

/-- C10: the divisor `tokens_count` of `validate()` is nonzero exactly when
some input token index of the validation set is strictly greater than zero
(so the unguarded divisions are by zero for an all-zero or empty validation
set); and `validate` indeed divides both accumulators by `tokens_count`. -/
theorem C10_division_by_tokens_count
    (model : List (List Nat) → List (List (List ℚ))) (batches : List Batch) :
    (0 < (validateAcc model batches).tokens_count ↔
      ∃ b ∈ batches, ∃ row ∈ b.tokens, ∃ x ∈ row, 0 < x) ∧
    validate model batches =
      ((validateAcc model batches).val_loss /
          ((validateAcc model batches).tokens_count : ℚ),
        ((validateAcc model batches).correct : ℚ) /
          ((validateAcc model batches).tokens_count : ℚ)) := by
  have hfold : (validateAcc model batches).tokens_count =
      (batches.map (fun b => countPos b.tokens)).sum := by
    rw [validateAcc, validateAcc_fold model batches ⟨0, 0, 0⟩]
    simp
  refine ⟨?_, rfl⟩
  rw [hfold]
  constructor
  · intro hpos
    by_contra hno
    push_neg at hno
    have hzero : (batches.map (fun b => countPos b.tokens)).sum = 0 := by
      rw [List.sum_eq_zero_iff]
      intro x hx
      obtain ⟨b, hb, rfl⟩ := List.mem_map.mp hx
      rw [countPos_flatten, List.countP_eq_zero]
      intro y hy
      obtain ⟨row, hrow, hyrow⟩ := List.mem_flatten.mp hy
      have hy0 := hno b hb row hrow y hyrow
      simp only [decide_eq_true_eq]
      omega
    omega
  · rintro ⟨b, hb, row, hrow, x, hx, hxpos⟩
    have hbpos : 0 < countPos b.tokens := by
      rw [countPos_flatten, List.countP_pos_iff]
      exact ⟨x, List.mem_flatten.mpr ⟨row, hrow, hx⟩, by simpa using hxpos⟩
    have hmem : countPos b.tokens ∈ batches.map (fun b => countPos b.tokens) :=
      List.mem_map.mpr ⟨b, hb, rfl⟩
    have hedge := List.single_le_sum (fun (n : Nat) _ => Nat.zero_le n) _ hmem
    omega

/-- C3 witness: a one-batch validation set with one valid token, on which the
model predicts class 0 with the higher score; `tokens_count = 1`, the loss is
the single masked NLL term, and the accuracy is `1/1 = 1 ∈ [0, 1]`. -/
theorem C3_witness :
    (validateAcc witnessModel [witnessBatch]).tokens_count =
      totalPosTokens [witnessBatch] ∧
    (validateAcc witnessModel [witnessBatch]).val_loss =
      ([witnessBatch].map
        (fun b => ceMaskSum (witnessModel b.tokens) b.target b.tokens)).sum ∧
    (validate witnessModel [witnessBatch]).2 =
      ((validateAcc witnessModel [witnessBatch]).correct : ℚ) /
        ((validateAcc witnessModel [witnessBatch]).tokens_count : ℚ) ∧
    0 ≤ (validate witnessModel [witnessBatch]).2 ∧
    (validate witnessModel [witnessBatch]).2 ≤ 1 :=
  C3_validate_stats witnessModel [witnessBatch] (by decide)

/-! ## Claim C8: structure of the metrics log -/

theorem stateAfter_shift (T : TrainSem σ) (s : σ) :
    ∀ n, stateAfter T s (n + 1) = stateAfter T (T.train_epoch s).2 n := by
  intro n
  induction n with
  | zero => rfl
  | succ n ih => rw [stateAfter, ih, stateAfter]

theorem epochBlock_shift (T : TrainSem σ) (s : σ) (e : Nat) :
    epochBlock T s (e + 1) = epochBlock T (T.train_epoch s).2 e := by
  rw [epochBlock, epochBlock, stateAfter_shift, stateAfter_shift]

theorem trainLoop_eq_blocks (T : TrainSem σ) :
    ∀ (n : Nat) (s : σ),
      (trainLoop T s n).1 = ((List.range n).map (epochBlock T s)).flatten := by
  intro n
  induction n with
  | zero => intro s; simp [trainLoop]
  | succ n ih =>
    intro s
    rw [trainLoop, List.range_succ_eq_map, List.map_cons, List.flatten_cons,
      List.map_map]
    have hcomp : (epochBlock T s ∘ fun i => i + 1) = epochBlock T (T.train_epoch s).2 :=
      funext fun e => epochBlock_shift T s e
    rw [hcomp, ← ih (T.train_epoch s).2]
    rw [epochBlock, stateAfter, stateAfter, stateAfter]
    simp

/-- C8: the metrics log of `train(num_epochs)` is exactly one baseline
`(None, val_loss, accuracy)` row followed, per epoch in order, by one
`(train_loss, None, None)` row per training batch (in batch order) and then
one `(None, val_loss, accuracy)` row; the log is append-only in the number
of epochs run; and the CSV written after all epochs pairs the header
`train_loss,val_loss,accuracy` with exactly this log. -/
theorem C8_metrics_log (T : TrainSem σ) (s : σ) (n : Nat) :
    trainRun T s n =
      ((none, some (T.validate s).1, some (T.validate s).2) : Row) ::
        ((List.range n).map (epochBlock T s)).flatten ∧
    (∀ m, ∃ tail, trainRun T s (m + 1) = trainRun T s m ++ tail) ∧
    trainCSV T s n = (["train_loss", "val_loss", "accuracy"], trainRun T s n) := by
  refine ⟨?_, ?_, rfl⟩
  · rw [trainRun, trainLoop_eq_blocks]
  · intro m
    refine ⟨epochBlock T s m, ?_⟩
    rw [trainRun, trainRun, trainLoop_eq_blocks, trainLoop_eq_blocks,
      List.range_succ, List.map_append, List.flatten_append]
    simp

/-! ## Claims C6, C2, C9: generation, seed encoding, persistence round-trip -/

theorem lstmSeq_length (σf τf : ℚ → ℚ) (sd : StateDict) (H : Nat) :
    ∀ (xs : List (List ℚ)) (hc : List ℚ × List ℚ),
      (lstmSeq σf τf sd H xs hc).1.length = xs.length := by
  intro xs
  induction xs with
  | nil => intro hc; rfl
  | cons x xs ih => intro hc; simp [lstmSeq, ih]

theorem buildModel_lstm_length (σf τf : ℚ → ℚ) (sd : StateDict) (H : Nat) :
    ∀ (xs : List (List ℚ)) (st : Option (List ℚ × List ℚ)),
      (((buildModel σf τf sd H).lstm) xs st).1.length = xs.length := by
  intro xs st
  exact lstmSeq_length σf τf sd H xs _

theorem lmPredict_fst_length (exp : ℚ → ℚ) {St : Type} (m : LstmLM St)
    (hm : ∀ xs st, ((m.lstm xs st).1).length = xs.length)
    (x : List Nat) (states : Option St) (t : ℚ) :
    ((lmPredict exp m x states t).1).length = x.length := by
  rw [lmPredict, lmLogits]
  by_cases ht : t = 1 <;> simp [ht, hm]

theorem genLoop_some (exp : ℚ → ℚ) {St : Type} (m : LstmLM St)
    (gvocab : List Char) (sample : List ℚ → Nat) (t : ℚ)
    (hm : ∀ xs st, ((m.lstm xs st).1).length = xs.length)
    (hs : ∀ d, sample d < gvocab.length) :
    ∀ (n : Nat) (tokens : List Nat) (states : Option St), tokens ≠ [] →
      ∃ s, genLoop exp m gvocab sample t n tokens states = some s ∧ s.length = n := by
  intro n
  induction n with
  | zero => exact fun tokens states _ => ⟨[], rfl, rfl⟩
  | succ n ih =>
    intro tokens states hne
    rw [genLoop]
    have hr1 : ((lmPredict exp m tokens states t).1) ≠ [] := by
      intro hnil
      have := lmPredict_fst_length exp m hm tokens states t
      rw [hnil] at this
      exact hne (List.eq_nil_of_length_eq_zero this.symm)
    obtain ⟨dist, hdist⟩ : ∃ d, ((lmPredict exp m tokens states t).1).getLast? = some d :=
      ⟨_, List.getLast?_eq_getLast _ hr1⟩
    rw [hdist, Option.some_bind, List.getElem?_eq_getElem (hs dist), Option.some_bind]
    obtain ⟨rest, hrest, hlen⟩ :=
      ih [sample dist] (some (lmPredict exp m tokens states t).2) (by simp)
    rw [hrest]
    exact ⟨_, rfl, by simp [hlen]⟩

/-- C6 counterexample: the empty seed encodes successfully, yet with
`max_length = 1` the generation loop hits `output[-1]` on an empty output
(an uncaught `IndexError`, modelled `none`) instead of returning a string of
length 1. -/
theorem C6_counterexample :
    mapM' (char2idx ['a']) ([] : List Char) = some [] ∧
    predictorPredict id (buildModel id id emptyStateDict 1) ['a'] (char2idx ['a'])
      (fun _ => 0) [] 1 1 = none := by decide

/-- C6 amended: for every nonempty seed whose characters encode successfully
(and a multinomial sampling source, which always returns an index below the
vocabulary size), `Predictor.predict` returns a string of exactly
`max_length` generated characters; the call starts the loop with
`states = None`, and each subsequent step receives only the single newly
sampled token together with the carried recurrent state. -/
theorem C6_generation (exp : ℚ → ℚ) {St : Type} (m : LstmLM St)
    (gvocab : List Char) (gc2i : Char → Option Nat) (sample : List ℚ → Nat)
    (text : List Char) (max_length : Nat) (t : ℚ) (tokens : List Nat)
    (hm : ∀ xs st, ((m.lstm xs st).1).length = xs.length)
    (hs : ∀ d, sample d < gvocab.length)
    (henc : mapM' gc2i text = some tokens) (hne : text ≠ []) :
    (predictorPredict exp m gvocab gc2i sample text max_length t).map List.length =
      some max_length ∧
    predictorPredict exp m gvocab gc2i sample text max_length t =
      genLoop exp m gvocab sample t max_length tokens none ∧
    (∀ (n : Nat) (toks : List Nat) (st : Option St) (dist : List ℚ) (ch : Char),
      ((lmPredict exp m toks st t).1).getLast? = some dist →
      gvocab[sample dist]? = some ch →
      genLoop exp m gvocab sample t (n + 1) toks st =
        (genLoop exp m gvocab sample t n [sample dist]
          (some (lmPredict exp m toks st t).2)).map (ch :: ·)) := by
  have htok : tokens ≠ [] := by
    intro hnil
    have hl := mapM'_length henc
    rw [hnil] at hl
    exact hne (List.eq_nil_of_length_eq_zero hl.symm)
  have hpp : predictorPredict exp m gvocab gc2i sample text max_length t =
      genLoop exp m gvocab sample t max_length tokens none := by
    rw [predictorPredict, henc, Option.some_bind]
  refine ⟨?_, hpp, ?_⟩
  · obtain ⟨s, hsome, hlen⟩ :=
      genLoop_some exp m gvocab sample t hm hs max_length tokens none htok
    rw [hpp, hsome, Option.map_some', hlen]
  · intro n toks st dist ch hdist hch
    rw [genLoop, hdist, Option.some_bind, hch, Option.some_bind]

/-- C6 witness: on a one-character vocabulary with an all-ones LSTM, the seed
`"a"` with `max_length = 3` generates exactly 3 characters. -/
theorem C6_witness :
    (predictorPredict id
      (buildModel id id
        ⟨[[1]], [[1], [1], [1], [1]], [[1], [1], [1], [1]],
          [0, 0, 0, 0], [0, 0, 0, 0], [[1]], [0]⟩ 1)
      ['a'] (char2idx ['a']) (fun _ => 0) ['a'] 3 1).map List.length = some 3 :=
  (C6_generation id
    (buildModel id id
      ⟨[[1]], [[1], [1], [1], [1]], [[1], [1], [1], [1]],
        [0, 0, 0, 0], [0, 0, 0, 0], [[1]], [0]⟩ 1)
    ['a'] (char2idx ['a']) (fun _ => 0) ['a'] 3 1 [0]
    (buildModel_lstm_length id id _ 1)
    (fun _ => Nat.one_pos) (by decide) (by decide)).1

/-- C2 counterexample: with the persisted vocabulary `["a"]` but a module
whose global training split is `"bbb"` (global vocabulary `["b"]`), the seed
`"b"` is absent from the persisted vocabulary, yet `Predictor.predict`
raises no lookup error — it encodes through the module-global `char2idx`
and returns successfully. -/
theorem C2_counterexample :
    predictorPredict id (predictorInit id id (save_model emptyStateDict ['a']))
      (vocab (train_set (List.replicate 5 'b')))
      (char2idx (vocab (train_set (List.replicate 5 'b'))))
      (fun _ => 0) ['b'] 0 1 = some [] ∧
    'b' ∉ (save_model emptyStateDict ['a']).vocab_json := by decide

/-- C2 amended: `Predictor.predict` encodes the seed with the module-global
`char2idx` (built from the current corpus's training split), not with the
vocabulary loaded from `vocab.json` (which only sizes the model); under a
well-formed model and sampling source it raises a lookup error exactly when
the seed contains a character absent from the module-global vocabulary. -/
theorem C2_encode_uses_global (exp : ℚ → ℚ) {St : Type} (m : LstmLM St)
    (gvocab : List Char) (sample : List ℚ → Nat) (text : List Char)
    (max_length : Nat) (t : ℚ)
    (hm : ∀ xs st, ((m.lstm xs st).1).length = xs.length)
    (hs : ∀ d, sample d < gvocab.length)
    (hne : text ≠ [] ∨ max_length = 0) :
    predictorPredict exp m gvocab (char2idx gvocab) sample text max_length t = none ↔
      ∃ c ∈ text, c ∉ gvocab := by
  rw [predictorPredict]
  cases henc : mapM' (char2idx gvocab) text with
  | none =>
    simp only [Option.none_bind]
    constructor
    · intro _
      obtain ⟨c, hc, hcnone⟩ := mapM'_eq_none_iff.mp henc
      exact ⟨c, hc, char2idx_eq_none_iff.mp hcnone⟩
    · intro _; trivial
  | some tokens =>
    simp only [Option.some_bind]
    constructor
    · intro hgen
      rcases hne with hne | rfl
      · have htok : tokens ≠ [] := by
          intro hnil
          have hl := mapM'_length henc
          rw [hnil] at hl
          exact hne (List.eq_nil_of_length_eq_zero hl.symm)
        obtain ⟨s, hsome, _⟩ :=
          genLoop_some exp m gvocab sample t hm hs max_length tokens none htok
        rw [hsome] at hgen
        exact absurd hgen (by simp)
      · exact absurd hgen (by simp [genLoop])
    · rintro ⟨c, hc, hcnot⟩
      have hmnone : mapM' (char2idx gvocab) text = none :=
        mapM'_eq_none_iff.mpr ⟨c, hc, char2idx_eq_none_iff.mpr hcnot⟩
      rw [henc] at hmnone
      exact absurd hmnone (by simp)

/-- C2 witness: the seed `"c"` contains a character outside the module-global
vocabulary `["b"]`, so `Predictor.predict` fails with a lookup error. -/
theorem C2_witness :
    predictorPredict id (buildModel id id emptyStateDict 1) ['b'] (char2idx ['b'])
      (fun _ => 0) ['c'] 0 1 = none :=
  (C2_encode_uses_global id (buildModel id id emptyStateDict 1) ['b'] (fun _ => 0)
    ['c'] 0 1 (buildModel_lstm_length id id _ 1) (fun _ => Nat.one_pos)
    (Or.inr rfl)).mpr ⟨'c', by decide, by decide⟩

/-- C9: persisting the state dict and vocabulary (`save_model`) and reloading
them into a fresh Predictor (`predictorInit`) preserves both artifacts
exactly, and generation from the reloaded predictor coincides, for every
seed, temperature, and deterministic sampling source, with generation from
the model built from the original state dict (serialization to disk is
modelled as the identity on the stored values; the generation function
depends on nothing else that persistence could change). -/
theorem C9_roundtrip (σf τf exp : ℚ → ℚ) (sd : StateDict) (v gvocab : List Char)
    (gc2i : Char → Option Nat) (sample : List ℚ → Nat) (seed : List Char)
    (max_length : Nat) (t : ℚ) :
    (save_model sd v).model_pth = sd ∧
    (save_model sd v).vocab_json = v ∧
    predictorPredict exp (predictorInit σf τf (save_model sd v)) gvocab gc2i
        sample seed max_length t =
      predictorPredict exp (buildModel σf τf sd 50) gvocab gc2i
        sample seed max_length t :=
  ⟨rfl, rfl, rfl⟩

end LmRnn
